import Mathlib

/-!
Shallow embedding of the webext-content-scripts module (current revision of
the source, the file that defines castTarget, castAllFramesTarget,
normalizeFiles, executeFunction, insertCSS, executeScript, getTabsByUrl,
injectContentScript, isScriptableUrl, catchTargetInjectionErrors and
canAccessTab), together with theorems that settle the specification claims.

Conventions of the embedding:
- JavaScript strings are Lean String values; character-level operations are
  carried out on String.data (the list of characters).
- A value that may be undefined is an Option.
- Asynchronous host interactions are made explicit: each operation returns
  the list of host calls it issues (in issue order) next to its result, or,
  for the legacy script-injection loop, a trace of submit/await events.
- Rejections are Except.error carrying the error message.
-/

namespace Webext

/-- A source entry as accepted by the public API: a bare path string, a
record with a file path, or a record with inline code. -/
inductive FileSource
| str (s : String)
| file (f : String)
| code (c : String)
deriving DecidableEq

/-- A normalized source entry (ExtensionFileOrCode in the source): a file
record or an inline-code record. -/
inductive ExtensionFileOrCode
| file (f : String)
| code (c : String)
deriving DecidableEq

/-- True on inline-code entries; mirrors the check `if ('code' in content)`. -/
def ExtensionFileOrCode.isCode : ExtensionFileOrCode → Bool
| .code _ => true
| .file _ => false

/-- The file path of a normalized entry, none on inline code. -/
def ExtensionFileOrCode.pathOf : ExtensionFileOrCode → Option String
| .file f => some f
| .code _ => none

/-- The file path referenced by a raw source entry, none on inline code. -/
def FileSource.pathOf : FileSource → Option String
| .str s => some s
| .file f => some f
| .code _ => none

/-- View a normalized entry back as a FileSource (used where normalized
lists are passed on as the files field of injection details). -/
def ExtensionFileOrCode.toSource : ExtensionFileOrCode → FileSource
| .file f => FileSource.file f
| .code c => FileSource.code c

/-- interface Target: tabId and a required frameId. -/
structure Target where
  tabId : Nat
  frameId : Nat
deriving DecidableEq

/-- interface AllFramesTarget: tabId, an optional frameId, and allFrames. -/
structure AllFramesTarget where
  tabId : Nat
  frameId : Option Nat
  allFrames : Bool
deriving DecidableEq

/-- The union type number | Target taken by the target-casting helpers. -/
inductive NumberOrTarget
| num (tabId : Nat)
| target (t : Target)
deriving DecidableEq

/-- castTarget: a bare number becomes the top frame of that tab, an
explicit target passes through unchanged. -/
def castTarget : NumberOrTarget → Target
| .target t => t
| .num tabId => { tabId := tabId, frameId := 0 }

/-- castAllFramesTarget: an explicit target spreads into the record with
allFrames false, a bare number yields frameId undefined and allFrames true. -/
def castAllFramesTarget : NumberOrTarget → AllFramesTarget
| .target t => { tabId := t.tabId, frameId := some t.frameId, allFrames := false }
| .num tabId => { tabId := tabId, frameId := none, allFrames := true }

/-- The run_at timing enumeration used by injection details. -/
inductive RunAt
| document_start
| document_end
| document_idle
deriving DecidableEq

/-- Promotion step of normalizeFiles: `typeof file === 'string' ? \x7bfile\x7d : file`.
A bare string becomes a file record; records pass through. -/
def promote : FileSource → ExtensionFileOrCode
| .str s => .file s
| .file f => .file f
| .code c => .code c

/-- The filter step of normalizeFiles, with the mutable `seen` array made an
explicit accumulator: inline code always passes, a file already present in
`seen` is dropped, a new file is kept and its path pushed onto `seen`.
Returns the kept entries together with the final state of `seen`. -/
def normalizeFilesAux : List ExtensionFileOrCode → List String → List ExtensionFileOrCode × List String
| [], seen => ([], seen)
| .code c :: rest, seen =>
    let r := normalizeFilesAux rest seen
    (.code c :: r.1, r.2)
| .file f :: rest, seen =>
    if f ∈ seen then normalizeFilesAux rest seen
    else
      let r := normalizeFilesAux rest (seen ++ [f])
      (.file f :: r.1, r.2)

/-- normalizeFiles: map the promotion over the input, then run the
deduplicating filter against the tracking list `seen`. -/
def normalizeFiles (files : List FileSource) (seen : List String) : List ExtensionFileOrCode × List String :=
  normalizeFilesAux (files.map promote) seen

/-- arrayOrUndefined: undefined maps to undefined, a value maps to the
one-element array holding it. -/
def arrayOrUndefined {α : Type} : Option α → Option (List α)
| none => none
| some x => some [x]

/-- interface InjectionDetails. -/
structure InjectionDetails where
  tabId : Nat
  frameId : Option Nat
  matchAboutBlank : Option Bool
  allFrames : Option Bool
  runAt : Option RunAt
  files : List FileSource
deriving DecidableEq

/-- Character-level startsWith (the JS String startsWith on the prefix
strings used by the module, which are all ASCII). -/
def strStartsWith (s p : String) : Bool := p.data.isPrefixOf s.data

/-- The static deny-list of origins and paths (blockedPrefixes). -/
def blockedPrefixes : List String := [
  "chrome.google.com/webstore",
  "chromewebstore.google.com",
  "accounts-static.cdn.mozilla.net",
  "accounts.firefox.com",
  "addons.cdn.mozilla.net",
  "addons.mozilla.org",
  "api.accounts.firefox.com",
  "content.cdn.mozilla.net",
  "discovery.addons.mozilla.org",
  "input.mozilla.org",
  "install.mozilla.org",
  "oauth.accounts.firefox.com",
  "profile.accounts.firefox.com",
  "support.mozilla.org",
  "sync.services.mozilla.com",
  "testpilot.firefox.com"]

/-- The scheme-stripping step `url.replace(/^https?:\/\//, '')`: the regex
is anchored, so it removes a leading https:// or http:// if present and
otherwise leaves the string unchanged. -/
def stripHttpScheme (url : String) : String :=
  if strStartsWith url ("https://") then ⟨url.data.drop 8⟩
  else if strStartsWith url ("http://") then ⟨url.data.drop 7⟩
  else url

/-- isScriptableUrl: false when the url is undefined or does not start with
the four characters http; otherwise true exactly when the scheme-stripped
url starts with none of the deny-listed entries. -/
def isScriptableUrl (url : Option String) : Bool :=
  match url with
  | none => false
  | some u =>
      if !(strStartsWith u ("http")) then false
      else blockedPrefixes.all fun blocked => !(strStartsWith (stripHttpScheme u) blocked)

/-- assertNoCode: throws when some normalized entry is inline code, with the
fixed message of the source; otherwise succeeds. -/
def assertNoCode (files : List ExtensionFileOrCode) : Except String Unit :=
  if files.any ExtensionFileOrCode.isCode then
    .error ("chrome.scripting does not support injecting strings of `code`")
  else .ok ()

/-- Observable events of executeScript. The modern capability issues one
batchCall (chrome.scripting.executeScript with the whole files array). The
legacy loop issues one submit per entry (chromeP.tabs.executeScript with the
spread entry and the shared detail fields) and, right before submitting an
inline-code entry, awaits the promise at the given index of the executions
array (awaitSettled). Submission indices count from zero in issue order. -/
inductive ScriptEvent
| batchCall (tabId : Nat) (frameIds : Option (List Nat)) (allFrames : Option Bool)
    (files : List (Option String))
| awaitSettled (index : Nat)
| submit (index : Nat) (tabId : Nat) (content : ExtensionFileOrCode)
    (matchAboutBlank : Option Bool) (allFrames : Option Bool)
    (frameId : Option Nat) (runAt : Option RunAt)
deriving DecidableEq

/-- The file field read by the destructuring `(\x7bfile\x7d) => file` of the modern
batch submission: undefined on an inline-code entry. -/
def fileField : ExtensionFileOrCode → Option String
| .file f => some f
| .code _ => none

/-- The submit event for one legacy execution, carrying the detail fields
spread from the injection details (matchAboutBlank, allFrames, frameId,
runAt) exactly as lines 217 to 223 of the source pass them. -/
def submitEvent (d : InjectionDetails) (index : Nat) (content : ExtensionFileOrCode) : ScriptEvent :=
  ScriptEvent.submit index d.tabId content d.matchAboutBlank d.allFrames d.frameId d.runAt

/-- The legacy for-loop of executeScript: `n` is the current length of the
executions array. A file entry is pushed without awaiting; an inline-code
entry first awaits `executions.at(-1)`, the promise at index n - 1 (when the
array is empty, at(-1) is undefined and awaiting undefined is immediate, so
no await event is recorded). -/
def legacyLoop (d : InjectionDetails) : List ExtensionFileOrCode → Nat → List ScriptEvent
| [], _ => []
| content :: rest, n =>
    (if content.isCode && n != 0 then [ScriptEvent.awaitSettled (n - 1)] else [])
    ++ submitEvent d n content :: legacyLoop d rest (n + 1)

/-- executeScript: normalize the files against a fresh tracking list; with
the modern capability assert the absence of inline code (rejecting before
any host call otherwise) and issue a single batch call carrying every
normalized entry; with the legacy capability run the serializing loop.
The returned option is the rejection message, none on success. The
ignoreTargetErrors routing of the source only filters host rejections of
the issued calls, which this call-trace model does not carry; the
assertNoCode rejection is thrown before that wrapping is reached. -/
def executeScript (gotScripting : Bool) (d : InjectionDetails) : List ScriptEvent × Option String :=
  let normalizedFiles := (normalizeFiles d.files []).1
  if gotScripting then
    match assertNoCode normalizedFiles with
    | .error e => ([], some e)
    | .ok _ =>
        ([ScriptEvent.batchCall d.tabId (arrayOrUndefined d.frameId)
            (if d.frameId = none then d.allFrames else none)
            (normalizedFiles.map fileField)], none)
  else (legacyLoop d normalizedFiles 0, none)

/-- One host call issued by insertCSS: the modern per-entry
chrome.scripting.insertCSS call, or the legacy chromeP.tabs.insertCSS call
whose runAt defaults to document_start when unspecified. -/
inductive CSSCall
| scriptingInsertCSS (tabId : Nat) (frameIds : Option (List Nat)) (allFrames : Option Bool)
    (files : Option (List String)) (css : Option String)
| tabsInsertCSS (tabId : Nat) (content : ExtensionFileOrCode) (matchAboutBlank : Option Bool)
    (allFrames : Option Bool) (frameId : Option Nat) (runAt : RunAt)
deriving DecidableEq

/-- insertCSS: normalize against a fresh tracking list and issue one host
call per normalized entry (all started together under Promise.all). -/
def insertCSS (gotScripting : Bool) (d : InjectionDetails) : List CSSCall :=
  (normalizeFiles d.files []).1.map fun content =>
    if gotScripting then
      CSSCall.scriptingInsertCSS d.tabId (arrayOrUndefined d.frameId)
        (if d.frameId = none then d.allFrames else none)
        (match content with | .file f => some [f] | .code _ => none)
        (match content with | .code c => some c | .file _ => none)
    else
      CSSCall.tabsInsertCSS d.tabId content d.matchAboutBlank d.allFrames d.frameId
        (d.runAt.getD RunAt.document_start)

/-- ContentScript bundle: optional css and js lists plus both spellings of
the option aliases, camelCase taking precedence through `??`. -/
structure ContentScript where
  css : Option (List FileSource)
  js : Option (List FileSource)
  matchAboutBlank : Option Bool
  match_about_blank : Option Bool
  runAt : Option RunAt
  run_at : Option RunAt
deriving DecidableEq

/-- An injection started by the orchestrator for one bundle: a call to
insertCSS or to executeScript with the given details. -/
inductive PlannedInjection
| insertCSS (d : InjectionDetails)
| executeScript (d : InjectionDetails)
deriving DecidableEq

/-- The injection details the orchestrator builds for one bundle and one
normalized list (lines 270 to 286 of the source). -/
def scriptDetails (t : AllFramesTarget) (script : ContentScript)
    (files : List ExtensionFileOrCode) : InjectionDetails :=
  { tabId := t.tabId
    frameId := t.frameId
    allFrames := some t.allFrames
    files := files.map ExtensionFileOrCode.toSource
    matchAboutBlank := script.matchAboutBlank <|> script.match_about_blank
    runAt := script.runAt <|> script.run_at }

/-- The flatMap body of injectContentScriptInSpecificTarget with the shared
mutable `seen` array made an explicit accumulator threaded through the
bundles in order: normalize css, then js, against the same tracking list;
start an insertCSS injection only when the normalized css list is nonempty
and an executeScript injection only when the normalized js list is nonempty
(the source writes `css.length > 0 && insertCSS(...)`, and a false entry in
the array passed to Promise.all issues no host call). Returns the started
injections and the final tracking list. -/
def injectInTarget (t : AllFramesTarget) : List ContentScript → List String → List PlannedInjection × List String
| [], seen => ([], seen)
| script :: rest, seen =>
    let cssR := normalizeFiles (script.css.getD []) seen
    let jsR := normalizeFiles (script.js.getD []) cssR.2
    let r := injectInTarget t rest jsR.2
    ((if cssR.1 = [] then [] else [PlannedInjection.insertCSS (scriptDetails t script cssR.1)])
      ++ (if jsR.1 = [] then [] else [PlannedInjection.executeScript (scriptDetails t script jsR.1)])
      ++ r.1, r.2)

/-- injectContentScriptInSpecificTarget: one fresh tracking list per call,
shared across every bundle of the call. -/
def injectContentScriptInSpecificTarget (t : AllFramesTarget) (scripts : List ContentScript) :
    List PlannedInjection :=
  (injectInTarget t scripts []).1

/-- A word character of the JS regex class backslash-w: ASCII letters,
digits and underscore. -/
def isWordChar (c : Char) : Bool := c.isAlpha || c.isDigit || c = '_'

/-- A character of the JS regex class backslash-s (whitespace): the ASCII
whitespace characters together with the Unicode space characters that class
includes. The source class [newline backslash-s] adds nothing, newline
already being whitespace. -/
def isJsSpace (c : Char) : Bool :=
  c = ' ' || c = '\t' || c = '\n' || c = '\r' ||
  c = '\x0b' || c = '\x0c' || c = '\xa0' || c = '\u1680' ||
  ('\u2000' ≤ c && c ≤ '\u200a') ||
  c = '\u2028' || c = '\u2029' || c = '\u202f' || c = '\u205f' ||
  c = '\u3000' || c = '\ufeff'

/-- Drop an exact literal from the front of a character list, none when the
list does not start with it. -/
def dropLiteral : List Char → List Char → Option (List Char)
| [], rest => some rest
| p :: ps, c :: cs => if c = p then dropLiteral ps cs else none
| _ :: _, [] => none

/-- Drop a maximal nonempty run of characters satisfying p from the front,
none when the first character does not satisfy p. Matches a one-or-more
regex repetition of a character class by maximal munch, which is faithful
here because every such repetition in the source regexes is followed by a
literal character outside the class, leaving the greedy engine no other
viable split. -/
def dropRun1 (p : Char → Bool) : List Char → Option (List Char)
| [] => none
| c :: cs => if p c then some (cs.dropWhile p) else none

/-- The test of the nativeFunction regex, anchored at the start and open at
the end: the literal `function `, one or more word characters, the literal
`() \x7b`, one or more whitespace characters, the literal `[native code]`, one
or more whitespace characters, and the literal `\x7d`. -/
def nativeFunctionTest (s : String) : Bool :=
  (do
    let r1 ← dropLiteral (("function ").data) s.data
    let r2 ← dropRun1 isWordChar r1
    let r3 ← dropLiteral (("() \x7b").data) r2
    let r4 ← dropRun1 isJsSpace r3
    let r5 ← dropLiteral (("[native code]").data) r4
    let r6 ← dropRun1 isJsSpace r5
    dropLiteral (("\x7d").data) r6).isSome

/-- A host call issued by executeFunction: the modern
chrome.scripting.executeScript call with a function and its arguments, or
the legacy chromeP.tabs.executeScript call with the assembled inline code
(which the source always submits with matchAboutBlank true). The function
is represented by its source text and the argument list by its JSON
serialization, the only forms that cross the boundary. -/
inductive FnCall
| scriptingExecute (tabId : Nat) (frameIds : List Nat) (functionSource : String) (argsJson : String)
| tabsExecuteCode (tabId : Nat) (code : String) (matchAboutBlank : Bool) (frameId : Nat)
deriving DecidableEq

/-- executeFunction: reject native built-ins before any host call, else
cast the target and issue the capability-appropriate call, whose outcome is
given by the host oracle. Returns the issued calls and the settlement. -/
def executeFunction (gotScripting : Bool) (target : NumberOrTarget)
    (functionSource : String) (argsJson : String)
    (host : FnCall → Except String Unit) : List FnCall × Except String Unit :=
  if nativeFunctionTest functionSource then
    ([], .error ("Native functions need to be wrapped first, like `executeFunction(1, () => alert(1))`"))
  else
    let t := castTarget target
    if gotScripting then
      let call := FnCall.scriptingExecute t.tabId [t.frameId] functionSource argsJson
      ([call], host call)
    else
      let call := FnCall.tabsExecuteCode t.tabId
        ("(" ++ functionSource ++ ")(..." ++ argsJson ++ ")") true t.frameId
      ([call], host call)

/-- canAccessTab: execute the trivial function `() => true` (serialized with
the empty argument list) in the cast target; resolve true when that
fulfills and false when it rejects for any reason. -/
def canAccessTab (gotScripting : Bool) (target : NumberOrTarget)
    (host : FnCall → Except String Unit) : Except String Bool :=
  match (executeFunction gotScripting (NumberOrTarget.target (castTarget target))
      ("() => true") ("[]") host).2 with
  | .ok _ => .ok true
  | .error _ => .ok false

/-- A tab record as returned by the host query: both fields optional. -/
structure Tab where
  id : Option Nat
  url : Option String
deriving DecidableEq

/-- JS truthiness of the optional numeric id: undefined and 0 are falsy. -/
def truthyId : Option Nat → Bool
| none => false
| some n => n != 0

/-- JS truthiness of the optional url string: undefined and the empty
string are falsy. -/
def truthyUrl : Option String → Bool
| none => false
| some s => s != ""

/-- The host tab query issued by getTabsByUrl. -/
inductive TabQueryCall
| query (url : List String)
deriving DecidableEq

/-- getTabsByUrl: with an empty inclusion list return the empty list before
any host interaction; otherwise compile the exclusion patterns (when the
excludeMatches argument is present) into one matcher, query the host, keep
the tabs whose id and url are truthy and whose url the matcher does not
match, and map the kept tabs to their ids. The pattern compiler is the
external webext-patterns collaborator and the currently open tabs are the
host snapshot, both taken as parameters. The inclusion argument named
matches in the source is called matchPatterns here, matches being a
reserved word of Lean. -/
def getTabsByUrl (compiledExclude : List String → String → Bool)
    (matchPatterns : List String) (excludeMatches : Option (List String))
    (hostTabs : List Tab) : List TabQueryCall × List Nat :=
  if matchPatterns.length = 0 then ([], [])
  else
    let exclude := excludeMatches.map compiledExclude
    ([TabQueryCall.query matchPatterns],
      (hostTabs.filter fun tab =>
        truthyId tab.id && truthyUrl tab.url &&
          (match exclude with
           | some ex => !(ex (tab.url.getD ""))
           | none => true)).filterMap Tab.id)

/-- A JS line terminator, the characters the regex wildcard dot does not
match without the dotAll flag. -/
def isLineTerminator (c : Char) : Bool :=
  c = '\n' || c = '\r' || c = '\u2028' || c = '\u2029'

/-- The regex fragment of one-or-more digits followed by the wildcard dot,
anchored at the end: with backtracking the split is forced, so a list
matches exactly when it has at least two characters, every character but
the last is a digit, and the last is not a line terminator. -/
def digitsThenAnyChar (l : List Char) : Bool :=
  match l.getLast? with
  | none => false
  | some c => !(isLineTerminator c) && !(l.dropLast.isEmpty) && l.dropLast.all Char.isDigit

/-- The first targetErrors alternative: `No frame with id `, digits,
` in tab `, digits, wildcard dot, end. The first digit run is forced to be
maximal because the following literal starts with a space. -/
def matchFrameGone (l : List Char) : Bool :=
  (((dropLiteral (("No frame with id ").data) l).bind
    (dropRun1 Char.isDigit)).bind
    (dropLiteral ((" in tab ").data))).elim false digitsThenAnyChar

/-- The second targetErrors alternative: `No tab with id: `, digits,
wildcard dot, end. -/
def matchTabGone (l : List Char) : Bool :=
  (dropLiteral (("No tab with id: ").data) l).elim false digitsThenAnyChar

/-- A literal followed by exactly one wildcard-dot character and the end of
the string. -/
def literalThenAnyChar (lit : List Char) (l : List Char) : Bool :=
  (dropLiteral lit l).elim false fun r =>
    match r with
    | [c] => !(isLineTerminator c)
    | _ => false

/-- The test of the targetErrors regex: the four anchored alternatives, in
each of which the terminal dot of the written message is an unescaped
wildcard. -/
def targetErrorsTest (s : String) : Bool :=
  matchFrameGone s.data || matchTabGone s.data ||
  literalThenAnyChar (("The tab was closed").data) s.data ||
  literalThenAnyChar (("The frame was removed").data) s.data

/-- catchTargetInjectionErrors: await the operation; resolve on success,
swallow a rejection whose message the targetErrors regex matches, rethrow
any other rejection unchanged. -/
def catchTargetInjectionErrors (promise : Except String Unit) : Except String Unit :=
  match promise with
  | .ok _ => .ok ()
  | .error e => if targetErrorsTest e then .ok () else .error e

/-- The paths of the file entries of a normalized list, in order. -/
def pathsOf (l : List ExtensionFileOrCode) : List String :=
  l.filterMap ExtensionFileOrCode.pathOf

/-- Every file path carried by a planned injection. -/
def injectionPaths : PlannedInjection → List String
| .insertCSS d => d.files.filterMap FileSource.pathOf
| .executeScript d => d.files.filterMap FileSource.pathOf

/-- Every file path carried by a list of planned injections, in order. -/
def plannedPaths (l : List PlannedInjection) : List String :=
  (l.map injectionPaths).flatten

/-- The file paths a bundle references through its css and js lists (bare
strings and file records; inline code references no path). -/
def referencedFilePaths (script : ContentScript) : List String :=
  (script.css.getD [] ++ script.js.getD []).filterMap FileSource.pathOf

/-- Structural invariant of legacy executeScript traces: every awaitSettled
event is immediately followed by the submission of an inline-code entry
whose index is one past the awaited index. -/
def awaitsPrecedeCodeSubmits : List ScriptEvent → Bool
| [] => true
| ScriptEvent.awaitSettled j ::
    ScriptEvent.submit i tb c mab af fid ra :: rest =>
    (i == j + 1) && c.isCode
      && awaitsPrecedeCodeSubmits (ScriptEvent.submit i tb c mab af fid ra :: rest)
| ScriptEvent.awaitSettled _ :: _ => false
| _ :: rest => awaitsPrecedeCodeSubmits rest

/-- The four target-disappeared messages exactly as the claim renders them,
with a literal terminal period and the numeric positions filled by nonempty
digit runs. -/
def specTargetGoneMessage (s : String) : Prop :=
  (∃ a b : List Char, a ≠ [] ∧ a.all Char.isDigit = true ∧ b ≠ [] ∧ b.all Char.isDigit = true ∧
    s.data = ("No frame with id ").data ++ a ++ (" in tab ").data ++ b ++ ['.'])
  ∨ (∃ b : List Char, b ≠ [] ∧ b.all Char.isDigit = true ∧
    s.data = ("No tab with id: ").data ++ b ++ ['.'])
  ∨ s = "The tab was closed."
  ∨ s = "The frame was removed."

/-- The four messages as the unescaped regex actually reads them: the
terminal period position may hold any character other than a line
terminator (and, the digit runs being arbitrary splits, that character may
itself be a digit, so a message such as No tab with id: 42 without a
period also qualifies). -/
def relaxedTargetGoneMessage (s : String) : Prop :=
  (∃ a b c, a ≠ [] ∧ a.all Char.isDigit = true ∧ b ≠ [] ∧ b.all Char.isDigit = true ∧
    isLineTerminator c = false ∧
    s.data = ("No frame with id ").data ++ a ++ (" in tab ").data ++ b ++ [c])
  ∨ (∃ b c, b ≠ [] ∧ b.all Char.isDigit = true ∧ isLineTerminator c = false ∧
    s.data = ("No tab with id: ").data ++ b ++ [c])
  ∨ (∃ c, isLineTerminator c = false ∧ s.data = ("The tab was closed").data ++ [c])
  ∨ (∃ c, isLineTerminator c = false ∧ s.data = ("The frame was removed").data ++ [c])

theorem pathOf_promote (x : FileSource) : (promote x).pathOf = x.pathOf := by
  cases x <;> rfl

theorem pathOf_toSource (x : ExtensionFileOrCode) : x.toSource.pathOf = x.pathOf := by
  cases x <;> rfl

/-- The final tracking list is the initial one extended by the paths of the
kept file entries, in order. -/
theorem normalizeFilesAux_seen (l : List ExtensionFileOrCode) (seen : List String) :
    (normalizeFilesAux l seen).2 = seen ++ pathsOf (normalizeFilesAux l seen).1 := by
  induction l generalizing seen with
  | nil => simp [normalizeFilesAux, pathsOf]
  | cons x rest ih =>
    cases x with
    | code c =>
      simpa [normalizeFilesAux, pathsOf, ExtensionFileOrCode.pathOf] using ih seen
    | file f =>
      by_cases hf : f ∈ seen
      · simpa [normalizeFilesAux, hf] using ih seen
      · have h := ih (seen ++ [f])
        simp [normalizeFilesAux, hf, pathsOf, ExtensionFileOrCode.pathOf] at h ⊢
        simp [h]

/-- Same statement for the wrapper. -/
theorem normalizeFiles_seen (files : List FileSource) (seen : List String) :
    (normalizeFiles files seen).2 = seen ++ pathsOf (normalizeFiles files seen).1 :=
  normalizeFilesAux_seen _ _

/-- The deduplicating filter keeps the tracking list duplicate-free. -/
theorem normalizeFilesAux_nodup (l : List ExtensionFileOrCode) (seen : List String)
    (h : seen.Nodup) : (normalizeFilesAux l seen).2.Nodup := by
  induction l generalizing seen with
  | nil => simpa [normalizeFilesAux]
  | cons x rest ih =>
    cases x with
    | code c => simpa [normalizeFilesAux] using ih seen h
    | file f =>
      by_cases hf : f ∈ seen
      · simpa [normalizeFilesAux, hf] using ih seen h
      · have hn : (seen ++ [f]).Nodup := by
          simp [List.nodup_append, h, hf]
        simpa [normalizeFilesAux, hf] using ih (seen ++ [f]) hn

/-- A path referenced by the input, or already tracked, is tracked after
normalization. -/
theorem mem_seen_of_referenced (l : List ExtensionFileOrCode) (seen : List String) (p : String)
    (h : p ∈ pathsOf l ∨ p ∈ seen) : p ∈ (normalizeFilesAux l seen).2 := by
  induction l generalizing seen with
  | nil =>
    rcases h with h | h
    · simp [pathsOf] at h
    · simpa [normalizeFilesAux]
  | cons x rest ih =>
    cases x with
    | code c =>
      refine ih seen ?_
      rcases h with h | h
      · exact Or.inl (by simpa [pathsOf, ExtensionFileOrCode.pathOf] using h)
      · exact Or.inr h
    | file f =>
      by_cases hf : f ∈ seen
      · rw [show normalizeFilesAux (ExtensionFileOrCode.file f :: rest) seen
            = normalizeFilesAux rest seen by simp [normalizeFilesAux, hf]]
        refine ih seen ?_
        rcases h with h | h
        · rcases (by simpa [pathsOf, ExtensionFileOrCode.pathOf] using h : p = f ∨ p ∈ pathsOf rest) with h | h
          · exact Or.inr (h ▸ hf)
          · exact Or.inl h
        · exact Or.inr h
      · rw [show (normalizeFilesAux (ExtensionFileOrCode.file f :: rest) seen).2
            = (normalizeFilesAux rest (seen ++ [f])).2 by simp [normalizeFilesAux, hf]]
        refine ih (seen ++ [f]) ?_
        rcases h with h | h
        · rcases (by simpa [pathsOf, ExtensionFileOrCode.pathOf] using h : p = f ∨ p ∈ pathsOf rest) with h | h
          · exact Or.inr (by simp [h])
          · exact Or.inl h
        · exact Or.inr (by simp [h])

/-- C8: every AllFramesTarget produced by castAllFramesTarget has allFrames
true exactly when frameId is absent; a bare tab number yields the record
with frameId absent and allFrames true, and an explicit target spreads into
the record with allFrames false. -/
theorem castAllFramesTarget_spec (x : NumberOrTarget) :
    ((castAllFramesTarget x).allFrames = true ↔ (castAllFramesTarget x).frameId = none)
    ∧ (∀ n : Nat, castAllFramesTarget (NumberOrTarget.num n)
        = { tabId := n, frameId := none, allFrames := true })
    ∧ (∀ t : Target, castAllFramesTarget (NumberOrTarget.target t)
        = { tabId := t.tabId, frameId := some t.frameId, allFrames := false }) := by
  refine ⟨?_, fun n => rfl, fun t => rfl⟩
  cases x <;> simp [castAllFramesTarget]

/-- C4: for every capability, target, argument serialization and host
oracle, a function whose source text matches the native-code stub pattern
makes executeFunction reject with the fixed TypeError message, which
instructs wrapping the built-in in a user-defined function, and no host
call is issued. -/
theorem executeFunction_rejects_native (gotScripting : Bool) (target : NumberOrTarget)
    (argsJson : String) (host : FnCall → Except String Unit) (functionSource : String)
    (h : nativeFunctionTest functionSource = true) :
    executeFunction gotScripting target functionSource argsJson host
      = ([], .error ("Native functions need to be wrapped first, like `executeFunction(1, () => alert(1))`")) := by
  simp [executeFunction, h]

/-- Witness for C4 at the stringification of the Date built-in, which the
pattern accepts. -/
theorem executeFunction_rejects_native_witness :
    executeFunction true (NumberOrTarget.num 1)
        ("function Date() \x7b [native code] \x7d") ("[]") (fun _ => .ok ())
      = ([], .error ("Native functions need to be wrapped first, like `executeFunction(1, () => alert(1))`")) :=
  executeFunction_rejects_native true (NumberOrTarget.num 1) ("[]") (fun _ => .ok ())
    ("function Date() \x7b [native code] \x7d") (by decide)

/-- C1: with the modern capability, when some entry of the normalized files
list is inline code, executeScript rejects with the UnsupportedOperation
message and issues no host call for any entry of the list; otherwise it
submits every normalized file entry to the host in a single batch call. -/
theorem executeScript_modern_spec (d : InjectionDetails) :
    ((∃ c ∈ (normalizeFiles d.files []).1, c.isCode = true) →
      executeScript true d
        = ([], some ("chrome.scripting does not support injecting strings of `code`")))
    ∧ ((∀ c ∈ (normalizeFiles d.files []).1, c.isCode = false) →
      executeScript true d
        = ([ScriptEvent.batchCall d.tabId (arrayOrUndefined d.frameId)
             (if d.frameId = none then d.allFrames else none)
             ((normalizeFiles d.files []).1.map fileField)], none)) := by
  constructor
  · rintro ⟨c, hc, hcode⟩
    have h : (normalizeFiles d.files []).1.any ExtensionFileOrCode.isCode = true :=
      List.any_eq_true.mpr ⟨c, hc, hcode⟩
    simp [executeScript, assertNoCode, h]
  · intro h
    have h2 : (normalizeFiles d.files []).1.any ExtensionFileOrCode.isCode = false := by
      rw [List.any_eq_false]
      intro c hc
      simp [h c hc]
    simp [executeScript, assertNoCode, h2]

/-- Witness for C1: a lone inline-code entry rejects with no host call; two
file entries (one written as a bare string) go out as one batch. -/
theorem executeScript_modern_spec_witness :
    executeScript true
      { tabId := 1, frameId := none, matchAboutBlank := none,
        allFrames := none, runAt := none, files := [FileSource.code ("x")] }
      = ([], some ("chrome.scripting does not support injecting strings of `code`"))
    ∧ executeScript true
      { tabId := 1, frameId := none, matchAboutBlank := none,
        allFrames := none, runAt := none,
        files := [FileSource.file ("a.js"), FileSource.str ("b.js")] }
      = ([ScriptEvent.batchCall 1 none none [some ("a.js"), some ("b.js")]], none) := by
  constructor
  · exact (executeScript_modern_spec _).1 (by decide)
  · have h := (executeScript_modern_spec
      { tabId := 1, frameId := none, matchAboutBlank := none,
        allFrames := none, runAt := none,
        files := [FileSource.file ("a.js"), FileSource.str ("b.js")] }).2 (by decide)
    simpa using h

/-- C9: canAccessTab never rejects; it resolves true exactly when the
trivial executeFunction call in the cast target fulfills, and resolves
false whenever that call rejects, whatever the message; the trivial
function source does not match the native-function pattern, so the host
oracle genuinely decides the outcome. -/
theorem canAccessTab_spec (gotScripting : Bool) (target : NumberOrTarget)
    (host : FnCall → Except String Unit) :
    (∃ b, canAccessTab gotScripting target host = .ok b)
    ∧ (canAccessTab gotScripting target host = .ok true ↔
        (executeFunction gotScripting (NumberOrTarget.target (castTarget target))
          ("() => true") ("[]") host).2 = .ok ())
    ∧ (∀ e, (executeFunction gotScripting (NumberOrTarget.target (castTarget target))
          ("() => true") ("[]") host).2 = .error e →
        canAccessTab gotScripting target host = .ok false)
    ∧ nativeFunctionTest ("() => true") = false := by
  refine ⟨?_, ?_, ?_, by decide⟩ <;>
    · unfold canAccessTab
      rcases hr : (executeFunction gotScripting (NumberOrTarget.target (castTarget target))
          ("() => true") ("[]") host).2 with e | u <;> simp [hr]

/-- Witness for C9: a host that reports a missing tab makes canAccessTab
resolve false rather than reject. -/
theorem canAccessTab_spec_witness :
    canAccessTab true (NumberOrTarget.num 7) (fun _ => .error ("No tab with id: 7.")) = .ok false :=
  (canAccessTab_spec true (NumberOrTarget.num 7) (fun _ => .error ("No tab with id: 7."))).2.2.1
    ("No tab with id: 7.") rfl

theorem plannedPaths_append (a b : List PlannedInjection) :
    plannedPaths (a ++ b) = plannedPaths a ++ plannedPaths b := by
  simp [plannedPaths]

theorem filterMap_toSource (l : List ExtensionFileOrCode) :
    (l.map ExtensionFileOrCode.toSource).filterMap FileSource.pathOf = pathsOf l := by
  rw [List.filterMap_map]
  simp only [pathsOf, Function.comp_def, pathOf_toSource]

theorem pathsOf_map_promote (files : List FileSource) :
    pathsOf (files.map promote) = files.filterMap FileSource.pathOf := by
  rw [pathsOf, List.filterMap_map]
  simp only [Function.comp_def, pathOf_promote]

/-- One unfolding step of the orchestrator worker. -/
theorem injectInTarget_cons (t : AllFramesTarget) (s : ContentScript)
    (rest : List ContentScript) (seen : List String) :
    injectInTarget t (s :: rest) seen
      = ((if (normalizeFiles (s.css.getD []) seen).1 = [] then []
          else [PlannedInjection.insertCSS
            (scriptDetails t s (normalizeFiles (s.css.getD []) seen).1)])
        ++ (if (normalizeFiles (s.js.getD []) (normalizeFiles (s.css.getD []) seen).2).1 = [] then []
          else [PlannedInjection.executeScript
            (scriptDetails t s (normalizeFiles (s.js.getD []) (normalizeFiles (s.css.getD []) seen).2).1)])
        ++ (injectInTarget t rest
            (normalizeFiles (s.js.getD []) (normalizeFiles (s.css.getD []) seen).2).2).1,
        (injectInTarget t rest
            (normalizeFiles (s.js.getD []) (normalizeFiles (s.css.getD []) seen).2).2).2) := rfl

theorem plannedPaths_cssBlock (t : AllFramesTarget) (s : ContentScript) (l : List ExtensionFileOrCode) :
    plannedPaths (if l = [] then []
      else [PlannedInjection.insertCSS (scriptDetails t s l)]) = pathsOf l := by
  by_cases h : l = [] <;>
    simp [h, plannedPaths, injectionPaths, scriptDetails, filterMap_toSource, pathsOf,
      Function.comp_def, pathOf_toSource]

theorem plannedPaths_jsBlock (t : AllFramesTarget) (s : ContentScript) (l : List ExtensionFileOrCode) :
    plannedPaths (if l = [] then []
      else [PlannedInjection.executeScript (scriptDetails t s l)]) = pathsOf l := by
  by_cases h : l = [] <;>
    simp [h, plannedPaths, injectionPaths, scriptDetails, filterMap_toSource, pathsOf,
      Function.comp_def, pathOf_toSource]

/-- The tracking list after the whole orchestration equals the initial one
extended by every file path carried by the planned injections, in order. -/
theorem injectInTarget_seen (t : AllFramesTarget) (scripts : List ContentScript) (seen : List String) :
    (injectInTarget t scripts seen).2 = seen ++ plannedPaths (injectInTarget t scripts seen).1 := by
  induction scripts generalizing seen with
  | nil => simp [injectInTarget, plannedPaths]
  | cons s rest ih =>
    rw [injectInTarget_cons, plannedPaths_append, plannedPaths_append,
      plannedPaths_cssBlock, plannedPaths_jsBlock,
      ih ((normalizeFiles (s.js.getD []) (normalizeFiles (s.css.getD []) seen).2).2),
      normalizeFiles_seen (s.js.getD []) ((normalizeFiles (s.css.getD []) seen).2),
      normalizeFiles_seen (s.css.getD []) seen]
    simp [List.append_assoc]

/-- The orchestration keeps the tracking list duplicate-free. -/
theorem injectInTarget_nodup (t : AllFramesTarget) (scripts : List ContentScript)
    (seen : List String) (h : seen.Nodup) : (injectInTarget t scripts seen).2.Nodup := by
  induction scripts generalizing seen with
  | nil => simpa [injectInTarget]
  | cons s rest ih =>
    rw [injectInTarget_cons]
    exact ih _ (normalizeFilesAux_nodup _ _ (normalizeFilesAux_nodup _ _ h))

/-- A path referenced by some bundle, or already tracked, is tracked at the
end of the orchestration. -/
theorem mem_final_seen_of_referenced (t : AllFramesTarget) (scripts : List ContentScript)
    (seen : List String) (p : String)
    (h : (∃ s ∈ scripts, p ∈ referencedFilePaths s) ∨ p ∈ seen) :
    p ∈ (injectInTarget t scripts seen).2 := by
  induction scripts generalizing seen with
  | nil =>
    rcases h with ⟨s, hs, _⟩ | h
    · simp at hs
    · simpa [injectInTarget]
  | cons s rest ih =>
    rw [injectInTarget_cons]
    rcases h with ⟨s0, hs0, hp⟩ | h
    · rcases List.mem_cons.mp hs0 with rfl | hs0
      · rcases (by simpa [referencedFilePaths] using hp :
            p ∈ (s0.css.getD []).filterMap FileSource.pathOf
            ∨ p ∈ (s0.js.getD []).filterMap FileSource.pathOf) with hp | hp
        · refine ih _ (Or.inr ?_)
          refine mem_seen_of_referenced _ _ _ (Or.inr ?_)
          exact mem_seen_of_referenced _ _ _ (Or.inl (by rwa [pathsOf_map_promote]))
        · refine ih _ (Or.inr ?_)
          exact mem_seen_of_referenced _ _ _ (Or.inl (by rwa [pathsOf_map_promote]))
      · exact ih _ (Or.inl ⟨s0, hs0, hp⟩)
    · refine ih _ (Or.inr ?_)
      refine mem_seen_of_referenced _ _ _ (Or.inr ?_)
      exact mem_seen_of_referenced _ _ _ (Or.inr h)

/-- Every insertCSS injection the orchestrator starts carries a nonempty
file list. -/
theorem insertCSS_mem_files_ne_nil (t : AllFramesTarget) (scripts : List ContentScript)
    (seen : List String) (d : InjectionDetails)
    (h : PlannedInjection.insertCSS d ∈ (injectInTarget t scripts seen).1) :
    d.files ≠ [] := by
  induction scripts generalizing seen with
  | nil => simp [injectInTarget] at h
  | cons s rest ih =>
    rw [injectInTarget_cons] at h
    simp only [List.mem_append] at h
    rcases h with (h | h) | h
    · by_cases h1 : (normalizeFiles (s.css.getD []) seen).1 = []
      · simp [h1] at h
      · simp only [h1, if_false, List.mem_singleton, PlannedInjection.insertCSS.injEq] at h
        subst h
        simpa [scriptDetails] using h1
    · by_cases h2 : (normalizeFiles (s.js.getD []) (normalizeFiles (s.css.getD []) seen).2).1 = []
        <;> simp [h2] at h
    · exact ih _ h

/-- Every executeScript injection the orchestrator starts carries a
nonempty file list. -/
theorem executeScript_mem_files_ne_nil (t : AllFramesTarget) (scripts : List ContentScript)
    (seen : List String) (d : InjectionDetails)
    (h : PlannedInjection.executeScript d ∈ (injectInTarget t scripts seen).1) :
    d.files ≠ [] := by
  induction scripts generalizing seen with
  | nil => simp [injectInTarget] at h
  | cons s rest ih =>
    rw [injectInTarget_cons] at h
    simp only [List.mem_append] at h
    rcases h with (h | h) | h
    · by_cases h1 : (normalizeFiles (s.css.getD []) seen).1 = []
        <;> simp [h1] at h
    · by_cases h2 : (normalizeFiles (s.js.getD []) (normalizeFiles (s.css.getD []) seen).2).1 = []
      · simp [h2] at h
      · simp only [h2, if_false, List.mem_singleton, PlannedInjection.executeScript.injEq] at h
        subst h
        simpa [scriptDetails] using h2
    · exact ih _ h

/-- A normalization that keeps nothing also records nothing. -/
theorem normalizeFiles_seen_of_nil (files : List FileSource) (seen : List String)
    (h : (normalizeFiles files seen).1 = []) : (normalizeFiles files seen).2 = seen := by
  have := normalizeFiles_seen files seen
  simpa [h, pathsOf] using this

/-- C10: within one orchestration call, no CSS insertion is started for a
bundle whose normalized (post-deduplication) css list is empty and no
script execution is started for a bundle whose normalized js list is empty:
every started insertCSS and executeScript injection carries a nonempty
normalized file list, and a bundle whose two normalized lists are both
empty (in particular one declaring neither css nor js, or one whose every
file was deduplicated away) starts no injection at all and leaves the rest
of the run unchanged. -/
theorem injectContentScript_skips_empty (t : AllFramesTarget) :
    (∀ scripts d, PlannedInjection.insertCSS d ∈ injectContentScriptInSpecificTarget t scripts →
      d.files ≠ [])
    ∧ (∀ scripts d, PlannedInjection.executeScript d ∈ injectContentScriptInSpecificTarget t scripts →
      d.files ≠ [])
    ∧ (∀ script rest seen,
        (normalizeFiles (script.css.getD []) seen).1 = [] →
        (normalizeFiles (script.js.getD []) (normalizeFiles (script.css.getD []) seen).2).1 = [] →
        injectInTarget t (script :: rest) seen = injectInTarget t rest seen)
    ∧ (∀ script rest seen, script.css = none → script.js = none →
        injectInTarget t (script :: rest) seen = injectInTarget t rest seen) := by
  have hstep : ∀ (script : ContentScript) (rest : List ContentScript) (seen : List String),
      (normalizeFiles (script.css.getD []) seen).1 = [] →
      (normalizeFiles (script.js.getD []) (normalizeFiles (script.css.getD []) seen).2).1 = [] →
      injectInTarget t (script :: rest) seen = injectInTarget t rest seen := by
    intro script rest seen h1 h2
    rw [injectInTarget_cons, if_pos h1, if_pos h2,
      normalizeFiles_seen_of_nil _ _ h2, normalizeFiles_seen_of_nil _ _ h1]
    simp
  refine ⟨fun scripts d h => insertCSS_mem_files_ne_nil t scripts [] d h,
    fun scripts d h => executeScript_mem_files_ne_nil t scripts [] d h,
    hstep, ?_⟩
  intro script rest seen hc hj
  refine hstep script rest seen ?_ ?_ <;> simp [hc, hj, normalizeFiles, normalizeFilesAux]

/-- Witness for C10: a bundle with neither css nor js, preceding one with a
css file, contributes nothing. -/
theorem injectContentScript_skips_empty_witness :
    injectInTarget
        { tabId := 1, frameId := none, allFrames := true }
        [{ css := none, js := none, matchAboutBlank := none, match_about_blank := none,
           runAt := none, run_at := none }]
        []
      = injectInTarget { tabId := 1, frameId := none, allFrames := true } [] [] :=
  (injectContentScript_skips_empty { tabId := 1, frameId := none, allFrames := true }).2.2.2
    { css := none, js := none, matchAboutBlank := none, match_about_blank := none,
      runAt := none, run_at := none } [] [] rfl rfl

/-- C3: normalization promotes each bare string to a file record, passes
every inline-code entry through unconditionally, drops a file entry whose
path is already tracked, and records each newly seen path; and because one
tracking list is shared across every bundle of one orchestration call for a
target, any file path referenced by some bundle appears exactly once among
the file arguments of the injection calls the orchestration issues. -/
theorem normalizeFiles_dedup_spec :
    (∀ s rest seen, normalizeFiles (FileSource.str s :: rest) seen
        = normalizeFiles (FileSource.file s :: rest) seen)
    ∧ (∀ c rest seen, normalizeFiles (FileSource.code c :: rest) seen
        = (ExtensionFileOrCode.code c :: (normalizeFiles rest seen).1,
           (normalizeFiles rest seen).2))
    ∧ (∀ f rest seen, f ∈ seen →
        normalizeFiles (FileSource.file f :: rest) seen = normalizeFiles rest seen)
    ∧ (∀ f rest seen, f ∉ seen →
        normalizeFiles (FileSource.file f :: rest) seen
          = (ExtensionFileOrCode.file f :: (normalizeFiles rest (seen ++ [f])).1,
             (normalizeFiles rest (seen ++ [f])).2))
    ∧ (∀ t scripts p, (∃ s ∈ scripts, p ∈ referencedFilePaths s) →
        (plannedPaths (injectContentScriptInSpecificTarget t scripts)).count p = 1) := by
  refine ⟨fun s rest seen => rfl,
    fun c rest seen => rfl,
    fun f rest seen h => by simp [normalizeFiles, normalizeFilesAux, h],
    fun f rest seen h => by simp [normalizeFiles, normalizeFilesAux, h],
    ?_⟩
  intro t scripts p h
  have hseen := injectInTarget_seen t scripts []
  have hnd := injectInTarget_nodup t scripts [] List.nodup_nil
  rw [hseen] at hnd
  have hmem := mem_final_seen_of_referenced t scripts [] p (Or.inl h)
  rw [hseen] at hmem
  simp only [List.nil_append] at hnd hmem
  exact List.count_eq_one_of_mem hnd hmem

/-- Witness for C3: a tracked file is dropped; a fresh file is recorded;
and two bundles referencing style.css through a string and through a file
record yield exactly one occurrence of the path. -/
theorem normalizeFiles_dedup_spec_witness :
    normalizeFiles [FileSource.file ("a.css")] [("a.css")] = normalizeFiles [] [("a.css")]
    ∧ normalizeFiles [FileSource.file ("b.css")] []
      = (ExtensionFileOrCode.file ("b.css") :: (normalizeFiles [] [("b.css")]).1,
         (normalizeFiles [] [("b.css")]).2)
    ∧ (plannedPaths (injectContentScriptInSpecificTarget
        { tabId := 1, frameId := none, allFrames := true }
        [{ css := some [FileSource.str ("style.css")], js := none, matchAboutBlank := none,
           match_about_blank := none, runAt := none, run_at := none },
         { css := some [FileSource.file ("style.css")], js := none, matchAboutBlank := none,
           match_about_blank := none, runAt := none, run_at := none }])).count ("style.css") = 1 := by
  refine ⟨normalizeFiles_dedup_spec.2.2.1 ("a.css") [] [("a.css")] (by simp),
    normalizeFiles_dedup_spec.2.2.2.1 ("b.css") [] [] (by simp),
    normalizeFiles_dedup_spec.2.2.2.2
      { tabId := 1, frameId := none, allFrames := true } _ ("style.css") ?_⟩
  refine ⟨{ css := some [FileSource.str ("style.css")], js := none, matchAboutBlank := none,
              match_about_blank := none, runAt := none, run_at := none }, by simp, ?_⟩
  simp [referencedFilePaths, FileSource.pathOf]

theorem executeScript_legacy_eq (d : InjectionDetails) :
    executeScript false d = (legacyLoop d (normalizeFiles d.files []).1 0, none) := rfl

/-- Every entry of the list is submitted, with its position as submission
index. -/
theorem legacyLoop_submit_mem (d : InjectionDetails) (l : List ExtensionFileOrCode)
    (n i : Nat) (c : ExtensionFileOrCode) (hc : l[i]? = some c) :
    ∃ s t, legacyLoop d l n = s ++ submitEvent d (n + i) c :: t := by
  induction l generalizing n i with
  | nil => simp at hc
  | cons x rest ih =>
    cases i with
    | zero =>
      simp only [List.getElem?_cons_zero, Option.some.injEq] at hc
      subst hc
      exact ⟨(if x.isCode && n != 0 then [ScriptEvent.awaitSettled (n - 1)] else []),
        legacyLoop d rest (n + 1), by simp [legacyLoop]⟩
    | succ i =>
      simp only [List.getElem?_cons_succ] at hc
      obtain ⟨s, t, hst⟩ := ih (n + 1) i hc
      refine ⟨(if x.isCode && n != 0 then [ScriptEvent.awaitSettled (n - 1)] else [])
        ++ submitEvent d n x :: s, t, ?_⟩
      have harith : n + 1 + i = n + (i + 1) := by omega
      simp [legacyLoop, hst, harith]

/-- An inline-code entry at a positive position is submitted immediately
after awaiting the submission right before it. -/
theorem legacyLoop_code_awaits (d : InjectionDetails) (l : List ExtensionFileOrCode)
    (n i : Nat) (c : ExtensionFileOrCode) (hc : l[i]? = some c)
    (hcode : c.isCode = true) (hpos : 0 < n + i) :
    ∃ s t, legacyLoop d l n
      = s ++ ScriptEvent.awaitSettled (n + i - 1) :: submitEvent d (n + i) c :: t := by
  induction l generalizing n i with
  | nil => simp at hc
  | cons x rest ih =>
    cases i with
    | zero =>
      simp only [List.getElem?_cons_zero, Option.some.injEq] at hc
      subst hc
      have hn : n ≠ 0 := by omega
      refine ⟨[], legacyLoop d rest (n + 1), ?_⟩
      simp [legacyLoop, hcode, hn]
    | succ i =>
      simp only [List.getElem?_cons_succ] at hc
      obtain ⟨s, t, hst⟩ := ih (n + 1) i hc (by omega)
      refine ⟨(if x.isCode && n != 0 then [ScriptEvent.awaitSettled (n - 1)] else [])
        ++ submitEvent d n x :: s, t, ?_⟩
      have harith : n + 1 + i = n + (i + 1) := by omega
      simp [legacyLoop, hst, harith]

theorem aPCS_cons_submit (i tb : Nat) (c : ExtensionFileOrCode) (mab af : Option Bool)
    (fid : Option Nat) (ra : Option RunAt) (rest : List ScriptEvent) :
    awaitsPrecedeCodeSubmits (ScriptEvent.submit i tb c mab af fid ra :: rest)
      = awaitsPrecedeCodeSubmits rest := by
  cases rest <;> rfl

theorem aPCS_cons_batch (tb : Nat) (fr : Option (List Nat)) (af : Option Bool)
    (fl : List (Option String)) (rest : List ScriptEvent) :
    awaitsPrecedeCodeSubmits (ScriptEvent.batchCall tb fr af fl :: rest)
      = awaitsPrecedeCodeSubmits rest := by
  cases rest <;> rfl

/-- Every legacy trace satisfies the await invariant: an awaitSettled event
is immediately followed by the submission of an inline-code entry whose
index is one past the awaited one. -/
theorem legacyLoop_awaits_ok (d : InjectionDetails) (l : List ExtensionFileOrCode) (n : Nat) :
    awaitsPrecedeCodeSubmits (legacyLoop d l n) = true := by
  induction l generalizing n with
  | nil => rfl
  | cons x rest ih =>
    by_cases hcond : (x.isCode && n != 0) = true
    · obtain ⟨hcode, hn⟩ : x.isCode = true ∧ n ≠ 0 := by simpa using hcond
      have hplus : n - 1 + 1 = n := by omega
      simp only [legacyLoop, hcond, if_true, List.cons_append, List.nil_append]
      show awaitsPrecedeCodeSubmits
        (ScriptEvent.awaitSettled (n - 1) :: submitEvent d n x :: legacyLoop d rest (n + 1)) = true
      simp [awaitsPrecedeCodeSubmits, submitEvent, hplus, hcode, aPCS_cons_submit, ih]
    · simp only [legacyLoop, hcond, if_false, List.nil_append]
      show awaitsPrecedeCodeSubmits (submitEvent d n x :: legacyLoop d rest (n + 1)) = true
      simp [submitEvent, aPCS_cons_submit, ih]

/-- Whatever immediately follows an awaitSettled event in a trace
satisfying the invariant is the submission of an inline-code entry indexed
one past the awaited index. -/
theorem aPCS_adjacent (s t : List ScriptEvent) (j i tb : Nat) (c : ExtensionFileOrCode)
    (mab af : Option Bool) (fid : Option Nat) (ra : Option RunAt)
    (h : awaitsPrecedeCodeSubmits
      (s ++ ScriptEvent.awaitSettled j :: ScriptEvent.submit i tb c mab af fid ra :: t) = true) :
    c.isCode = true ∧ i = j + 1 := by
  induction s with
  | nil =>
    simp only [List.nil_append, awaitsPrecedeCodeSubmits, Bool.and_eq_true, beq_iff_eq] at h
    exact ⟨h.1.2, h.1.1⟩
  | cons x s' ih =>
    cases x with
    | batchCall a b c2 d2 =>
      rw [List.cons_append, aPCS_cons_batch] at h
      exact ih h
    | submit a b c2 d2 e2 f2 g2 =>
      rw [List.cons_append, aPCS_cons_submit] at h
      exact ih h
    | awaitSettled j2 =>
      cases s' with
      | nil => simp [awaitsPrecedeCodeSubmits] at h
      | cons y s2 =>
        cases y with
        | batchCall a b c2 d2 => simp [awaitsPrecedeCodeSubmits] at h
        | awaitSettled j3 => simp [awaitsPrecedeCodeSubmits] at h
        | submit a b c2 d2 e2 f2 g2 =>
          simp only [List.cons_append, awaitsPrecedeCodeSubmits, Bool.and_eq_true] at h
          exact ih (by simpa using h.2)

/-- C2: under the legacy capability, an inline-code entry at a positive
position of the normalized list is submitted only immediately after
awaiting the settlement of the immediately preceding submission (of any
kind); every entry is submitted with its list position as submission index;
a file entry is never immediately preceded by an awaitSettled event; and on
the list file a.js, code x, file b.js the trace is: submit a.js, await
submission zero, submit the code, submit b.js without an intervening
await. -/
theorem executeScript_legacy_ordering (d : InjectionDetails) :
    (∀ i c, ((normalizeFiles d.files []).1)[i]? = some c → c.isCode = true → 0 < i →
      ∃ s t, (executeScript false d).1
        = s ++ ScriptEvent.awaitSettled (i - 1) :: submitEvent d i c :: t)
    ∧ (∀ i c, ((normalizeFiles d.files []).1)[i]? = some c →
      ∃ s t, (executeScript false d).1 = s ++ submitEvent d i c :: t)
    ∧ (∀ i c, ((normalizeFiles d.files []).1)[i]? = some c → c.isCode = false →
      ∀ j s t, (executeScript false d).1
        ≠ s ++ ScriptEvent.awaitSettled j :: submitEvent d i c :: t)
    ∧ executeScript false
        { tabId := 1, frameId := none, matchAboutBlank := none, allFrames := none, runAt := none,
          files := [FileSource.file ("a.js"), FileSource.code ("x"), FileSource.file ("b.js")] }
      = ([ScriptEvent.submit 0 1 (ExtensionFileOrCode.file ("a.js")) none none none none,
          ScriptEvent.awaitSettled 0,
          ScriptEvent.submit 1 1 (ExtensionFileOrCode.code ("x")) none none none none,
          ScriptEvent.submit 2 1 (ExtensionFileOrCode.file ("b.js")) none none none none], none) := by
  refine ⟨?_, ?_, ?_, by rfl⟩
  · intro i c hc hcode hpos
    rw [executeScript_legacy_eq]
    simpa using legacyLoop_code_awaits d _ 0 i c hc hcode (by omega)
  · intro i c hc
    rw [executeScript_legacy_eq]
    simpa using legacyLoop_submit_mem d _ 0 i c hc
  · intro i c _ hfile j s t heq
    have hok : awaitsPrecedeCodeSubmits ((executeScript false d).1) = true :=
      legacyLoop_awaits_ok d (normalizeFiles d.files []).1 0
    rw [heq] at hok
    have hadj := aPCS_adjacent s t j i d.tabId c d.matchAboutBlank d.allFrames d.frameId d.runAt
      (by simpa [submitEvent] using hok)
    rw [hfile] at hadj
    exact Bool.false_ne_true hadj.1

/-- Witness for C2 on the example list: the inline-code entry at position
one is submitted right after awaiting submission zero, and no await event
immediately precedes the submission of b.js. -/
theorem executeScript_legacy_ordering_witness :
    (∃ s t, (executeScript false
        { tabId := 1, frameId := none, matchAboutBlank := none, allFrames := none, runAt := none,
          files := [FileSource.file ("a.js"), FileSource.code ("x"), FileSource.file ("b.js")] }).1
      = s ++ ScriptEvent.awaitSettled 0
          :: submitEvent
            { tabId := 1, frameId := none, matchAboutBlank := none, allFrames := none, runAt := none,
              files := [FileSource.file ("a.js"), FileSource.code ("x"), FileSource.file ("b.js")] }
            1 (ExtensionFileOrCode.code ("x")) :: t)
    ∧ (∀ j s t, (executeScript false
        { tabId := 1, frameId := none, matchAboutBlank := none, allFrames := none, runAt := none,
          files := [FileSource.file ("a.js"), FileSource.code ("x"), FileSource.file ("b.js")] }).1
      ≠ s ++ ScriptEvent.awaitSettled j
          :: submitEvent
            { tabId := 1, frameId := none, matchAboutBlank := none, allFrames := none, runAt := none,
              files := [FileSource.file ("a.js"), FileSource.code ("x"), FileSource.file ("b.js")] }
            2 (ExtensionFileOrCode.file ("b.js")) :: t) :=
  ⟨(executeScript_legacy_ordering
      { tabId := 1, frameId := none, matchAboutBlank := none, allFrames := none, runAt := none,
        files := [FileSource.file ("a.js"), FileSource.code ("x"), FileSource.file ("b.js")] }).1
      1 (ExtensionFileOrCode.code ("x")) rfl rfl (by omega),
   (executeScript_legacy_ordering
      { tabId := 1, frameId := none, matchAboutBlank := none, allFrames := none, runAt := none,
        files := [FileSource.file ("a.js"), FileSource.code ("x"), FileSource.file ("b.js")] }).2.2.1
      2 (ExtensionFileOrCode.file ("b.js")) rfl rfl⟩

/-- Counterexample for C6: a string that starts with the four characters
http without carrying an HTTP or HTTPS scheme is reported scriptable, so
the function does not return false on every URL lacking an HTTP(S)
scheme. -/
theorem isScriptableUrl_counterexample :
    isScriptableUrl (some ("httpgarbage")) = true
    ∧ strStartsWith ("httpgarbage") ("http://") = false
    ∧ strStartsWith ("httpgarbage") ("https://") = false := by
  refine ⟨by decide, by decide, by decide⟩

/-- C6 as amended: isScriptableUrl returns false when the URL does not
begin with the literal characters http (not: with a full HTTP(S) scheme),
returns false when the scheme-stripped URL begins with a deny-list entry,
returns false on an absent URL, and returns true for an ordinary HTTPS
page URL; being a plain function of the string, it consults no live
state. -/
theorem isScriptableUrl_spec (u : String) :
    (strStartsWith u ("http") = false → isScriptableUrl (some u) = false)
    ∧ (∀ b ∈ blockedPrefixes, strStartsWith (stripHttpScheme u) b = true →
        isScriptableUrl (some u) = false)
    ∧ isScriptableUrl none = false
    ∧ isScriptableUrl (some ("https://example.com/page")) = true := by
  refine ⟨fun h => by simp [isScriptableUrl, h], ?_, rfl, by decide⟩
  intro b hb hsw
  by_cases hh : strStartsWith u ("http")
  · have hall : (blockedPrefixes.all fun blocked =>
        !(strStartsWith (stripHttpScheme u) blocked)) = false := by
      refine List.all_eq_false.mpr ⟨b, hb, ?_⟩
      simp [hsw]
    simp [isScriptableUrl, hh, hall]
  · simp [isScriptableUrl, Bool.of_not_eq_true hh]

/-- Witness for C6: a non-http scheme is rejected, and a deny-listed
origin is rejected. -/
theorem isScriptableUrl_spec_witness :
    isScriptableUrl (some ("ftp://example.com")) = false
    ∧ isScriptableUrl (some ("https://addons.mozilla.org/firefox")) = false :=
  ⟨(isScriptableUrl_spec ("ftp://example.com")).1 (by decide),
   (isScriptableUrl_spec ("https://addons.mozilla.org/firefox")).2.1
     ("addons.mozilla.org") (by decide) (by decide)⟩

/-- Counterexample for C7: a queried tab whose identifier is present but
zero carries both an identifier and a URL and is excluded by nothing, yet
its identifier is missing from the result, because the source tests the
identifier for JS truthiness rather than presence. -/
theorem getTabsByUrl_counterexample :
    getTabsByUrl (fun _ _ => false) [("*://*/*")] none
        [{ id := some 0, url := some ("https://example.com/") }]
      = ([TabQueryCall.query [("*://*/*")]], [])
    ∧ (0 ∉ (getTabsByUrl (fun _ _ => false) [("*://*/*")] none
        [{ id := some 0, url := some ("https://example.com/") }]).2)
    ∧ (some 0 : Option Nat) ≠ none
    ∧ (some ("https://example.com/") : Option String) ≠ none := by
  refine ⟨rfl, by simp [getTabsByUrl, truthyId, truthyUrl], by simp, by simp⟩

/-- C7 as amended: with an empty inclusion list getTabsByUrl returns the
empty list and issues no host query; with a nonempty inclusion list it
issues exactly one query and returns exactly the identifiers of the
queried tabs whose identifier is present and nonzero and whose URL is
present, nonempty, and matched by no compiled exclusion matcher (JS
truthiness makes a zero identifier or an empty URL drop the tab). -/
theorem getTabsByUrl_spec (compiledExclude : List String → String → Bool)
    (matchPatterns : List String) (excludeMatches : Option (List String))
    (hostTabs : List Tab) :
    (matchPatterns = [] →
      getTabsByUrl compiledExclude matchPatterns excludeMatches hostTabs = ([], []))
    ∧ (matchPatterns ≠ [] →
      (getTabsByUrl compiledExclude matchPatterns excludeMatches hostTabs).1
        = [TabQueryCall.query matchPatterns]
      ∧ (∀ n, n ∈ (getTabsByUrl compiledExclude matchPatterns excludeMatches hostTabs).2 ↔
          ∃ tab ∈ hostTabs, tab.id = some n ∧ n ≠ 0 ∧
            ∃ u, tab.url = some u ∧ u ≠ "" ∧
              (∀ ex, excludeMatches = some ex → compiledExclude ex u = false))) := by
  constructor
  · intro h
    simp [getTabsByUrl, h]
  · intro h
    have hlen : ¬ matchPatterns.length = 0 := by simpa using h
    constructor
    · simp [getTabsByUrl, hlen]
    · intro n
      simp only [getTabsByUrl, hlen, if_false, List.mem_filterMap, List.mem_filter]
      constructor
      · rintro ⟨tab, ⟨htab, hpred⟩, hid⟩
        refine ⟨tab, htab, hid, ?_⟩
        rcases tab with ⟨tid, turl⟩
        rcases turl with _ | u
        · simp [truthyUrl] at hpred
        · simp only [truthyId, truthyUrl, Option.getD_some, Bool.and_eq_true,
            bne_iff_ne, ne_eq] at hpred
          simp only at hid
          rcases hpred with ⟨⟨hid0, hu0⟩, hex⟩
          refine ⟨?_, u, rfl, hu0, ?_⟩
          · cases tid with
            | none => simp [truthyId] at hid0
            | some m => simp at hid; subst hid; simpa using hid0
          · intro ex hex2
            subst hex2
            simpa using hex
      · rintro ⟨tab, htab, hid, hn0, u, hu, hu0, hexc⟩
        refine ⟨tab, ⟨htab, ?_⟩, hid⟩
        rw [hid, hu]
        simp only [truthyId, truthyUrl, Option.getD_some, Bool.and_eq_true, bne_iff_ne, ne_eq]
        refine ⟨⟨hn0, hu0⟩, ?_⟩
        cases excludeMatches with
        | none => simp
        | some ex => simpa using hexc ex rfl

/-- Witness for C7: the empty inclusion list yields nothing, and a tab with
a positive identifier is returned. -/
theorem getTabsByUrl_spec_witness :
    getTabsByUrl (fun _ _ => false) [] none [] = ([], [])
    ∧ 1 ∈ (getTabsByUrl (fun _ _ => false) [("*://*/*")] none
        [{ id := some 1, url := some ("https://example.com/") }]).2 := by
  refine ⟨(getTabsByUrl_spec (fun _ _ => false) [] none []).1 rfl, ?_⟩
  refine (((getTabsByUrl_spec (fun _ _ => false) [("*://*/*")] none
      [{ id := some 1, url := some ("https://example.com/") }]).2 (by simp)).2 1).mpr ?_
  exact ⟨{ id := some 1, url := some ("https://example.com/") }, by simp, rfl, by decide,
    ("https://example.com/"), rfl, by decide, by simp⟩

theorem dropLiteral_eq_some (lit l r : List Char) :
    dropLiteral lit l = some r ↔ l = lit ++ r := by
  induction lit generalizing l with
  | nil => simp [dropLiteral]
  | cons p ps ih =>
    cases l with
    | nil => simp [dropLiteral]
    | cons c cs =>
      by_cases h : c = p
      · subst h
        simp [dropLiteral, ih]
      · simp [dropLiteral, h]

/-- l equals its dropLast extended by its last element. -/
theorem eq_dropLast_concat (l : List Char) (c : Char) (h : l.getLast? = some c) :
    l = l.dropLast ++ [c] := by
  induction l with
  | nil => simp at h
  | cons x rest ih =>
    cases rest with
    | nil =>
      simp only [List.getLast?_singleton, Option.some.injEq] at h
      subst h
      rfl
    | cons y t =>
      rw [List.getLast?_cons_cons] at h
      have h2 := ih h
      calc x :: y :: t = x :: ((y :: t).dropLast ++ [c]) := by rw [← h2]
        _ = (x :: y :: t).dropLast ++ [c] := by simp [List.dropLast]

theorem digitsThenAnyChar_iff (l : List Char) :
    digitsThenAnyChar l = true ↔
      ∃ b c, b ≠ [] ∧ b.all Char.isDigit = true ∧ isLineTerminator c = false ∧ l = b ++ [c] := by
  constructor
  · intro h
    unfold digitsThenAnyChar at h
    rcases hl : l.getLast? with _ | c
    · rw [hl] at h
      simp at h
    · rw [hl] at h
      simp only [Bool.and_eq_true, Bool.not_eq_true'] at h
      obtain ⟨⟨hlt, hne0⟩, hall⟩ := h
      have hne : l.dropLast ≠ [] := by
        intro hnil
        rw [hnil] at hne0
        simp at hne0
      exact ⟨l.dropLast, c, hne, hall, hlt, eq_dropLast_concat l c hl⟩
  · rintro ⟨b, c, hbne, hball, hc, rfl⟩
    unfold digitsThenAnyChar
    rw [List.getLast?_concat, List.dropLast_concat]
    simp [hc, hbne, hball]

theorem dropRun1_eq_some (p : Char → Bool) (l r : List Char) (h : dropRun1 p l = some r) :
    ∃ a, a ≠ [] ∧ a.all p = true ∧ l = a ++ r := by
  cases l with
  | nil => simp [dropRun1] at h
  | cons c cs =>
    by_cases hp : p c
    · simp only [dropRun1, hp, if_true, Option.some.injEq] at h
      subst h
      refine ⟨c :: cs.takeWhile p, by simp, ?_, ?_⟩
      · simp only [List.all_cons, hp, Bool.true_and, List.all_eq_true]
        exact fun x hx => List.mem_takeWhile_imp hx
      · simp [List.takeWhile_append_dropWhile]
    · simp [dropRun1, hp] at h

theorem dropWhile_append_all (p : Char → Bool) (a r : List Char) (ha : a.all p = true) :
    (a ++ r).dropWhile p = r.dropWhile p := by
  induction a with
  | nil => rfl
  | cons c a2 ih =>
    simp only [List.all_cons, Bool.and_eq_true] at ha
    simp [List.dropWhile_cons, ha.1, ih ha.2]

theorem dropRun1_append (p : Char → Bool) (a r : List Char) (ha : a ≠ [])
    (hall : a.all p = true) (hr : r.dropWhile p = r) : dropRun1 p (a ++ r) = some r := by
  cases a with
  | nil => exact absurd rfl ha
  | cons c a2 =>
    simp only [List.all_cons, Bool.and_eq_true] at hall
    simp [dropRun1, hall.1, dropWhile_append_all p a2 r hall.2, hr]

theorem matchFrameGone_iff (l : List Char) :
    matchFrameGone l = true ↔
      ∃ a b c, a ≠ [] ∧ a.all Char.isDigit = true ∧ b ≠ [] ∧ b.all Char.isDigit = true ∧
        isLineTerminator c = false ∧
        l = ("No frame with id ").data ++ a ++ (" in tab ").data ++ b ++ [c] := by
  constructor
  · intro h
    unfold matchFrameGone at h
    rcases h1 : dropLiteral (("No frame with id ").data) l with _ | r
    · simp [h1] at h
    rcases h2 : dropRun1 Char.isDigit r with _ | r1
    · simp [h1, h2] at h
    rcases h3 : dropLiteral ((" in tab ").data) r1 with _ | r2
    · simp [h1, h2, h3] at h
    simp only [h1, h2, h3, Option.some_bind, Option.elim_some] at h
    obtain ⟨b, c, hbne, hball, hc, hr2⟩ := (digitsThenAnyChar_iff r2).mp h
    obtain ⟨a, hane, haall, hra⟩ := dropRun1_eq_some _ _ _ h2
    have hl := (dropLiteral_eq_some _ _ _).mp h1
    have hr1 := (dropLiteral_eq_some _ _ _).mp h3
    refine ⟨a, b, c, hane, haall, hbne, hball, hc, ?_⟩
    rw [hl, hra, hr1, hr2]
    simp [List.append_assoc]
  · rintro ⟨a, b, c, hane, haall, hbne, hball, hc, rfl⟩
    unfold matchFrameGone
    rw [(dropLiteral_eq_some (("No frame with id ").data) _
        (a ++ ((" in tab ").data ++ (b ++ [c])))).mpr (by simp [List.append_assoc])]
    rw [Option.some_bind,
      dropRun1_append Char.isDigit a ((" in tab ").data ++ (b ++ [c])) hane haall
        (by simp [List.dropWhile_cons]),
      Option.some_bind,
      (dropLiteral_eq_some ((" in tab ").data) _ (b ++ [c])).mpr rfl,
      Option.elim_some]
    exact (digitsThenAnyChar_iff _).mpr ⟨b, c, hbne, hball, hc, rfl⟩

theorem matchTabGone_iff (l : List Char) :
    matchTabGone l = true ↔
      ∃ b c, b ≠ [] ∧ b.all Char.isDigit = true ∧ isLineTerminator c = false ∧
        l = ("No tab with id: ").data ++ b ++ [c] := by
  constructor
  · intro h
    unfold matchTabGone at h
    rcases h1 : dropLiteral (("No tab with id: ").data) l with _ | r
    · simp [h1] at h
    simp only [h1, Option.elim_some] at h
    obtain ⟨b, c, hbne, hball, hc, hr⟩ := (digitsThenAnyChar_iff r).mp h
    have hl := (dropLiteral_eq_some _ _ _).mp h1
    refine ⟨b, c, hbne, hball, hc, ?_⟩
    rw [hl, hr]
    simp [List.append_assoc]
  · rintro ⟨b, c, hbne, hball, hc, rfl⟩
    unfold matchTabGone
    rw [(dropLiteral_eq_some (("No tab with id: ").data) _ (b ++ [c])).mpr
      (by simp [List.append_assoc]), Option.elim_some]
    exact (digitsThenAnyChar_iff _).mpr ⟨b, c, hbne, hball, hc, rfl⟩

theorem literalThenAnyChar_iff (lit l : List Char) :
    literalThenAnyChar lit l = true ↔
      ∃ c, isLineTerminator c = false ∧ l = lit ++ [c] := by
  constructor
  · intro h
    unfold literalThenAnyChar at h
    rcases h1 : dropLiteral lit l with _ | r
    · simp [h1] at h
    simp only [h1, Option.elim_some] at h
    rcases r with _ | ⟨c, _ | ⟨c2, r2⟩⟩
    · simp at h
    · exact ⟨c, by simpa using h, (dropLiteral_eq_some _ _ _).mp h1⟩
    · simp at h
  · rintro ⟨c, hc, rfl⟩
    unfold literalThenAnyChar
    rw [(dropLiteral_eq_some lit _ [c]).mpr rfl, Option.elim_some]
    simpa using hc

/-- The targetErrors regex accepts exactly the relaxed messages: the four
written messages with the terminal period position holding any character
other than a line terminator. -/
theorem targetErrorsTest_iff (s : String) :
    targetErrorsTest s = true ↔ relaxedTargetGoneMessage s := by
  unfold targetErrorsTest relaxedTargetGoneMessage
  rw [Bool.or_eq_true, Bool.or_eq_true, Bool.or_eq_true,
    matchFrameGone_iff, matchTabGone_iff, literalThenAnyChar_iff, literalThenAnyChar_iff]
  simp only [or_assoc]

/-- Counterexample for C5: the message The tab was closed! is not one of
the four exact target-disappeared messages (each of which ends in a
literal period), yet the classifier swallows it instead of propagating it,
because the terminal dot of the regex is an unescaped wildcard. -/
theorem catchTargetInjectionErrors_counterexample :
    catchTargetInjectionErrors (.error ("The tab was closed!")) = .ok ()
    ∧ ¬ specTargetGoneMessage ("The tab was closed!") := by
  refine ⟨rfl, ?_⟩
  rintro (⟨a, b, _, _, _, _, h⟩ | ⟨b, _, _, h⟩ | h | h)
  · have hd : (("The tab was closed!").data).getLast? = some '.' := by
      rw [h]
      exact List.getLast?_concat _
    exact absurd hd (by decide)
  · have hd : (("The tab was closed!").data).getLast? = some '.' := by
      rw [h]
      exact List.getLast?_concat _
    exact absurd hd (by decide)
  · exact absurd h (by decide)
  · exact absurd h (by decide)

/-- C5 as amended: the classifier resolves on fulfillment; it swallows a
rejection exactly when the message matches one of the four patterns with
the terminal period position holding any single character other than a
line terminator (so the four exact messages are swallowed, but so are
variants such as The tab was closed! or No tab with id: 42 without a
period); any other rejection propagates unchanged. -/
theorem catchTargetInjectionErrors_spec :
    catchTargetInjectionErrors (.ok ()) = .ok ()
    ∧ (∀ e, relaxedTargetGoneMessage e → catchTargetInjectionErrors (.error e) = .ok ())
    ∧ (∀ e, ¬ relaxedTargetGoneMessage e → catchTargetInjectionErrors (.error e) = .error e)
    ∧ (∀ e, specTargetGoneMessage e → relaxedTargetGoneMessage e) := by
  refine ⟨rfl, ?_, ?_, ?_⟩
  · intro e he
    have h : targetErrorsTest e = true := (targetErrorsTest_iff e).mpr he
    simp [catchTargetInjectionErrors, h]
  · intro e he
    have h : targetErrorsTest e = false := by
      rcases hx : targetErrorsTest e with _ | _
      · rfl
      · exact absurd ((targetErrorsTest_iff e).mp hx) he
    simp [catchTargetInjectionErrors, h]
  · intro e he
    rcases he with ⟨a, b, hane, haall, hbne, hball, h⟩ | ⟨b, hbne, hball, h⟩ | h | h
    · exact Or.inl ⟨a, b, '.', hane, haall, hbne, hball, by decide, h⟩
    · exact Or.inr (Or.inl ⟨b, '.', hbne, hball, by decide, h⟩)
    · refine Or.inr (Or.inr (Or.inl ⟨'.', by decide, ?_⟩))
      rw [h]
      decide
    · refine Or.inr (Or.inr (Or.inr ⟨'.', by decide, ?_⟩))
      rw [h]
      decide

/-- Witness for C5: an exact target-disappeared message is swallowed, the
relaxed variant without a period is swallowed, and an unrelated message
propagates unchanged. -/
theorem catchTargetInjectionErrors_spec_witness :
    catchTargetInjectionErrors (.error ("No tab with id: 42.")) = .ok ()
    ∧ catchTargetInjectionErrors (.error ("No tab with id: 42")) = .ok ()
    ∧ catchTargetInjectionErrors (.error ("Permission denied")) = .error ("Permission denied") := by
  refine ⟨?_, ?_, ?_⟩
  · exact catchTargetInjectionErrors_spec.2.1 ("No tab with id: 42.")
      (Or.inr (Or.inl ⟨['4', '2'], '.', by decide, by decide, by decide, by decide⟩))
  · exact catchTargetInjectionErrors_spec.2.1 ("No tab with id: 42")
      (Or.inr (Or.inl ⟨['4'], '2', by decide, by decide, by decide, by decide⟩))
  · exact catchTargetInjectionErrors_spec.2.2.1 ("Permission denied")
      (fun hrel => absurd ((targetErrorsTest_iff ("Permission denied")).mpr hrel) (by decide))

end Webext

